import Mathlib

/-!
# Verification of the `pyper` persistent-homology core

This file gives a shallow embedding, in Lean 4, of the core algorithms of the
`pyper` repository and proves (or refutes) the specification claims about them.

Embedded components and their sources:

* `UF.find`, `UF.merge`, `UF.roots` — the `UnionFind` class of
  `pyper/utilities.py` (a parent list with path compression and a
  *directional* merge).  Python's unbounded recursion in `find` is modelled
  with an explicit fuel argument; fuel `length + 1` is proved sufficient for
  every well-formed (acyclic, in-bounds) parent list.
* `argsortStable` — `np.argsort(..., kind='stable')` as used by both engines.
* `calculate_persistence_diagrams_1d` and its step `processIndex` — the 1D
  function-persistence engine of `pyper/persistent_homology/functions.py`.
* `calculate_persistence_diagrams` and its step `processEdge` — the graph
  persistence engine of `pyper/persistent_homology/graphs.py`.  The Python
  code raises `IndexError` on an empty sorted-edge array; accordingly the
  embedding returns an `Option`, with `none` modelling the raise.
* `make_betti_curve` / `evalBetti` — `pyper/representations/betti_curve.py`.
  Thresholds are modelled as pairs `(q, tag) : ℚ × ℤ`, ordered
  lexicographically, where tag `0` is the plain value `q` and tag `-1`
  models `np.nextafter(q, q - 1)`, i.e. a value lying strictly between `q`
  and every representable number below `q`.  All queries of interest are
  plain values (tag `0`), for which this order agrees with the
  floating-point order used by the Python code.

Weights and function values are modelled as integers (`ℤ`): the algorithms
use only order comparisons and negation on them, so any linearly ordered
group models the floating-point weights faithfully for these claims.
-/

namespace Pyper

/-! ## Union-Find (`pyper/utilities.py`) -/

namespace UF

/-- Parent lookup in the parent list.  Out-of-range indices behave as their
own parent; all library calls stay in range. -/
def pget (p : List Nat) (u : Nat) : Nat := p.getD u u

/-- `u` is its own parent (`find` fixed point, cf. `UnionFind.roots`). -/
abbrev isRoot (p : List Nat) (u : Nat) : Prop := pget p u = u

/-- Pure root lookup with explicit fuel (no path compression). -/
def rootAux : Nat → List Nat → Nat → Nat
  | 0, _, u => u
  | k + 1, p, u => if pget p u = u then u else rootAux k p (pget p u)

/-- The root of `u`, with the fuel that suffices on well-formed lists. -/
def rootD (p : List Nat) (u : Nat) : Nat := rootAux (p.length + 1) p u

/-- `UnionFind.find` with path compression, with explicit fuel: returns the
root together with the updated parent list. -/
def findAux : Nat → List Nat → Nat → Nat × List Nat
  | 0, p, u => (u, p)
  | k + 1, p, u =>
    if pget p u = u then (u, p)
    else
      let r := findAux k p (pget p u)
      (r.1, r.2.set u r.1)

/-- `UnionFind.find(u)`: root of `u` plus the path-compressed parent list. -/
def find (p : List Nat) (u : Nat) : Nat × List Nat := findAux (p.length + 1) p u

/-- `UnionFind.merge(u, v)`: merge `u`'s component into `v`'s component.
Mirrors `self._parent[self.find(u)] = self.find(v)` (`find(v)` is evaluated
first, then the assignment target `find(u)`), guarded by `u != v`. -/
def merge (p : List Nat) (u v : Nat) : List Nat :=
  if u = v then p
  else
    let fv := find p v
    let fu := find fv.2 u
    fu.2.set fu.1 fv.1

/-- `UnionFind.roots()`: all vertices that are their own parent, in
increasing vertex order (as produced by `enumerate`). -/
def roots (p : List Nat) : List Nat :=
  (List.range p.length).filter fun i => pget p i == i

/-- All stored parent entries are in range. -/
def Bnd (p : List Nat) : Prop := ∀ x, x < p.length → pget p x < p.length

/-- `h` strictly decreases along parent links: an acyclicity certificate. -/
def Decr (p : List Nat) (h : Nat → Nat) : Prop :=
  ∀ u, pget p u ≠ u → h (pget p u) < h u

/-- Well-formed parent list: in-bounds entries and an acyclicity
certificate.  This holds for the initial list and is preserved by `find`
and `merge`. -/
def WF (p : List Nat) : Prop := Bnd p ∧ ∃ h : Nat → Nat, Decr p h

end UF

/-! ## Stable argsort (`np.argsort(..., kind='stable')`) -/

/-- Insert index `i` into an already argsorted index list, after all indices
whose weight is less than or equal to `w[i]` — the insertion step of a
stable insertion sort. -/
def insertIdxSorted (w : List Int) (i : Nat) : List Nat → List Nat
  | [] => [i]
  | j :: rest =>
    if w.getD i 0 < w.getD j 0 then i :: j :: rest
    else j :: insertIdxSorted w i rest

/-- Stable argsort: the list of indices `0, ..., n-1` ordered by ascending
weight, indices of equal weights keeping their original order. -/
def argsortStable (w : List Int) : List Nat :=
  (List.range w.length).foldl (fun acc i => insertIdxSorted w i acc) []

/-! ## Filtration order -/

/-- The filtration order flag (`'sublevel'` / `'superlevel'`). -/
inductive Order where
  | sublevel
  | superlevel
deriving DecidableEq

/-- The comparison predicate chosen by `calculate_persistence_diagrams_1d`:
`operator.lt` for sublevel, `operator.gt` for superlevel. -/
def predB : Order → Int → Int → Bool
  | .sublevel, a, b => decide (a < b)
  | .superlevel, a, b => decide (a > b)

/-- The sorted index list chosen by both engines: `np.argsort(w)` for
sublevel and `np.argsort(-w)` for superlevel, both stable. -/
def sortIndices (order : Order) (w : List Int) : List Nat :=
  match order with
  | .sublevel => argsortStable w
  | .superlevel => argsortStable (w.map (fun z => -z))

/-! ## 1D function persistence
(`calculate_persistence_diagrams_1d`, `pyper/persistent_homology/functions.py`) -/

/-- Sweep state of the 1D engine: the Union-Find parent list and the
persistence pairs recorded so far (as index pairs into the input series). -/
structure FnState where
  uf : List Nat
  pairs : List (Nat × Nat)
deriving DecidableEq

/-- One iteration of the main loop of `calculate_persistence_diagrams_1d`
for the sample at position `index` of the input series `f` (`n = len(f)`).
Mirrors the local minimum / local maximum / regular-point case split,
including the plateau (incomparable-neighbour) merges and their reversed
direction, and the state threading of every `uf.find` call. -/
def processIndex (f : List Int) (pred : Int → Int → Bool) (n : Nat)
    (s : FnState) (index : Nat) : FnState :=
  let x := f.getD index 0
  let u := if 0 < index then f.getD (index - 1) 0 else x
  let v := if index < n - 1 then f.getD (index + 1) 0 else x
  if pred x u && pred x v then
    -- Case 1 (local minimum): nothing to do
    s
  else if pred u x && pred v x then
    -- Case 2 (local maximum): record a pair, then merge both branches
    let fl := UF.find s.uf (index - 1)
    let fr := UF.find fl.2 (index + 1)
    if pred (f.getD fl.1 0) (f.getD fr.1 0) then
      let fr2 := UF.find fr.2 (index + 1)
      let p1 := UF.merge fr2.2 index (index + 1)
      let p2 := UF.merge p1 (index + 1) (index - 1)
      ⟨p2, s.pairs ++ [(fr2.1, index)]⟩
    else
      let fl2 := UF.find fr.2 (index - 1)
      let p1 := UF.merge fl2.2 index (index - 1)
      let p2 := UF.merge p1 (index - 1) (index + 1)
      ⟨p2, s.pairs ++ [(fl2.1, index)]⟩
  else
    -- Case 3 (regular point / plateau)
    let incompL := !(pred u x) && !(pred x u)
    let incompR := !(pred v x) && !(pred x v)
    let doLeft := pred u x || incompL
    let doRight := (!(pred u x) && pred v x) || incompR
    if !doLeft && !doRight then s
    else
      let p1 :=
        if doLeft && index != 0 then
          (if incompL then UF.merge s.uf (index - 1) index
           else UF.merge s.uf index (index - 1))
        else s.uf
      let p2 :=
        if doRight && index != n - 1 then
          (if incompR then UF.merge p1 (index + 1) index
           else UF.merge p1 index (index + 1))
        else p1
      ⟨p2, s.pairs⟩

/-- `calculate_persistence_diagrams_1d(function, order)`: the full sweep in
filtration order, followed by the forced global pair and the translation of
index pairs into value pairs. -/
def calculate_persistence_diagrams_1d (f : List Int) (order : Order) :
    List (Int × Int) :=
  let indices := sortIndices order f
  let n := f.length
  let s := indices.foldl (processIndex f (predB order) n) ⟨List.range n, []⟩
  let pairs :=
    if 2 ≤ indices.length then
      if (indices.getD 0 0, indices.getLastD 0) ∈ s.pairs then s.pairs
      else s.pairs ++ [(indices.getD 0 0, indices.getLastD 0)]
    else s.pairs
  pairs.map (fun cd => (f.getD cd.1 0, f.getD cd.2 0))

/-! ## Graph persistence
(`calculate_persistence_diagrams`, `pyper/persistent_homology/graphs.py`) -/

/-- A graph with weights on vertices and edges: `n` vertices, an edge list
(`edge.tuple` order), a vertex-weight attribute and an edge-weight
attribute. -/
structure WeightedGraph where
  n : Nat
  edges : List (Nat × Nat)
  vertexWeights : List Int
  edgeWeights : List Int
deriving DecidableEq

/-- Loop state of the graph engine: Union-Find parent list, the pairs of
the 0-dimensional diagram recorded so far, and the indices of
cycle-creating edges. -/
structure GraphState where
  uf : List Nat
  pd0 : List (Int × Int)
  cycles : List Nat
deriving DecidableEq

/-- One iteration of the edge loop of `calculate_persistence_diagrams` for
the edge with index `ei`.  `vi` is the sorted vertex-index array
(`vertex_indices = np.argsort(vertex_weights)`); note that the code
compares the *entries* `vertex_indices[younger] < vertex_indices[older]`
to decide the swap.  The recorded birth is the vertex weight at the root
the code calls `younger`, and `merge(u, v)` merges `u`'s component into
`v`'s. -/
def processEdge (g : WeightedGraph) (vi : List Nat) (s : GraphState)
    (ei : Nat) : GraphState :=
  let e := g.edges.getD ei (0, 0)
  let w := g.edgeWeights.getD ei 0
  let fu := UF.find s.uf e.1
  let fv := UF.find fu.2 e.2
  let younger := fu.1
  let older := fv.1
  if younger = older then
    { uf := fv.2, pd0 := s.pd0, cycles := s.cycles ++ [ei] }
  else
    let swap := vi.getD younger 0 < vi.getD older 0
    let u2 := if swap then e.2 else e.1
    let v2 := if swap then e.1 else e.2
    let younger2 := if swap then older else younger
    let creation := g.vertexWeights.getD younger2 0
    let p3 := UF.merge fv.2 u2 v2
    { uf := p3, pd0 := s.pd0 ++ [(creation, w)], cycles := s.cycles }

/-- The edge loop of `calculate_persistence_diagrams`, folded over the
edge indices in filtration order. -/
def graphEdgeFold (g : WeightedGraph) (order : Order) : GraphState :=
  let edgeIndices := sortIndices order g.edgeWeights
  let vi := sortIndices order g.vertexWeights
  edgeIndices.foldl (processEdge g vi) ⟨List.range g.n, [], []⟩

/-- `calculate_persistence_diagrams(graph, order)`.  After the edge loop
the code reads `edge_weights[edge_indices[-1]]` as the unpaired value;
on an empty edge set this indexes an empty array and raises `IndexError`,
modelled here by `none`. -/
def calculate_persistence_diagrams (g : WeightedGraph) (order : Order) :
    Option (List (Int × Int) × List (Int × Int)) :=
  let edgeIndices := sortIndices order g.edgeWeights
  let s := graphEdgeFold g order
  match edgeIndices.getLast? with
  | none => none
  | some lastIdx =>
    let unpaired := g.edgeWeights.getD lastIdx 0
    let pd0 := s.pd0 ++
      (UF.roots s.uf).map (fun r => (g.vertexWeights.getD r 0, unpaired))
    let pd1 := s.cycles.map (fun ei => (g.edgeWeights.getD ei 0, unpaired))
    some (pd0, pd1)

/-! ## Betti curves (`pyper/representations/betti_curve.py`)

Diagrams for the Betti-curve builder carry rational coordinates.  A stored
threshold is a pair `(q, tag) : ℚ × ℤ` ordered lexicographically: tag `0`
is the plain value `q`; tag `-1` models `np.nextafter(q, q - 1)`, the
floating-point predecessor of `q`, which lies strictly between `q` and
every queried value below `q`. -/

/-- A stored threshold of a Betti curve. -/
abbrev Thr : Type := Rat × Int

/-- Strict lexicographic comparison of thresholds, mirroring the
floating-point `<` on the curve's index. -/
def thrLtB (a b : Thr) : Bool := decide (a.1 < b.1) || (a.1 == b.1 && decide (a.2 < b.2))

/-- The raw event-point list: each diagram pair `(x, y)` contributes
`(x, True)` (creation) and `(y, False)` (destruction), in diagram order. -/
def eventPoints (diagram : List (Rat × Rat)) : List (Rat × Bool) :=
  diagram.foldr (fun pr acc => (pr.1, true) :: (pr.2, false) :: acc) []

/-- Stable insertion of an event into an event list sorted by value
(`sorted(..., key=lambda x: x[0])`). -/
def insertEvent (e : Rat × Bool) : List (Rat × Bool) → List (Rat × Bool)
  | [] => [e]
  | t :: rest => if e.1 < t.1 then e :: t :: rest else t :: insertEvent e rest

/-- Stable sort of the event points by value. -/
def sortEvents (l : List (Rat × Bool)) : List (Rat × Bool) :=
  l.foldl (fun acc e => insertEvent e acc) []

/-- The running number of active intervals after each event (`n_active`),
paired with the event's value. -/
def runningCounts : List (Rat × Bool) → Int → List (Rat × Int)
  | [], _ => []
  | (p, isGen) :: rest, n =>
    let n2 := if isGen then n + 1 else n - 1
    (p, n2) :: runningCounts rest n2

/-- State of the second pass of `make_betti_curve`: previous time point,
previous number of active intervals, and the output samples built so far. -/
structure BCState where
  prev_p : Rat
  prev_v : Int
  out : List (Thr × Int)
deriving DecidableEq

/-- `process_event_points(p, n_active)`: accumulate while the threshold is
unchanged; on a change, optionally insert the half-open correction point
`np.nextafter(prev_p, prev_p - 1)` (modelled as `(prev_p, -1)`) carrying
the previous stored value, then store `(prev_p, prev_v)`. -/
def processEventPoint (s : BCState) (p : Rat) (nActive : Int) : BCState :=
  if s.prev_p = p then { s with prev_v := nActive }
  else
    let out1 :=
      match s.out.getLast? with
      | none => s.out
      | some t => s.out ++ [(((s.prev_p, -1) : Thr), t.2)]
    { prev_p := p, prev_v := nActive,
      out := out1 ++ [(((s.prev_p, 0) : Thr), s.prev_v)] }

/-- `make_betti_curve(diagram)`: `none` for an empty diagram, otherwise the
ordered `(threshold, count)` samples of the Betti curve. -/
def make_betti_curve (diagram : List (Rat × Rat)) :
    Option (List (Thr × Int)) :=
  let events := sortEvents (eventPoints diagram)
  match events with
  | [] => none
  | e0 :: _ =>
    let output := runningCounts events 0
    let s0 : BCState := ⟨e0.1, 0, []⟩
    let s1 := output.foldl (fun s pe => processEventPoint s pe.1 pe.2) s0
    let s2 :=
      match s1.out.getLast? with
      | none => s1
      | some t =>
        if ((s1.prev_p, 0) : Thr) ≠ t.1
        then processEventPoint s1 (s1.prev_p + 1) (s1.prev_v + 1)
        else s1
    some s2.out

/-- `BettiCurve.__call__(threshold)`: exact-label match first; otherwise
average the nearest stored values on both sides; `0` outside the stored
range (compact support). -/
def evalBetti (c : List (Thr × Int)) (x : Rat) : Rat :=
  let q : Thr := (x, 0)
  match (c.filter (fun t => t.1 == q)).head? with
  | some t => (t.2 : Rat)
  | none =>
    let lower := c.filter fun t => thrLtB t.1 q
    let upper := c.filter fun t => thrLtB q t.1
    match lower.getLast?, upper.head? with
    | some a, some b => (1 / 2 : Rat) * ((a.2 : Rat) + (b.2 : Rat))
    | _, _ => 0

/-! ## Definitions specific to individual claims -/

/-- The root the spec calls *older*: "compare the vertex filtration rank of
`ru` and `rv` (the position of each root in the vertex sort order, not the
raw weight) ... the root with the smaller rank is older".  The rank of a
root `r` is its position in the sorted vertex-index array `vi`, i.e.
`vi.indexOf r`.  This follows the spec's words, for comparison with the
code, which instead compares the entries `vi[r]`. -/
def specOlderRoot (vi : List Nat) (ru rv : Nat) : Nat :=
  if vi.indexOf ru < vi.indexOf rv then ru else rv

/-- The root the graph engine treats as *younger* (the one whose vertex
weight it records and whose component it merges away): after the swap at
`graphs.py:277`, it is `rv` when `vertex_indices[ru] < vertex_indices[rv]`
and `ru` otherwise. -/
def codeYoungerRoot (vi : List Nat) (ru rv : Nat) : Nat :=
  if vi.getD ru 0 < vi.getD rv 0 then rv else ru

/-- The test graph of `tests/persistent_homology/test_graphs.py` (from the
Graph Filtration Learning paper): 5 vertices with weights `[1,4,3,2,1]`,
edges `(0,1),(1,2),(2,3),(2,4)` with weights `[4,4,3,3]`. -/
def gflGraph : WeightedGraph :=
  ⟨5, [(0, 1), (1, 2), (2, 3), (2, 4)], [1, 4, 3, 2, 1], [4, 4, 3, 3]⟩

/-- The 0-dimensional diagram the engine computes for `gflGraph` under the
sublevel order. -/
def gflPd0 : List (Int × Int) := [(3, 3), (2, 3), (4, 4), (1, 4), (1, 4)]

/-- A 3-vertex graph with vertex weights `[3,1,2]` and one edge `(0,1)` of
weight `5`: on it, comparing argsort *entries* and comparing argsort
*ranks* disagree about which root is older. -/
def rankBugGraph : WeightedGraph := ⟨3, [(0, 1)], [3, 1, 2], [5]⟩

/-- The diagram of the Betti-curve step-value scenario. -/
def diagram8 : List (Rat × Rat) := [(0, 1), (0, 6), (1, 2), (2, 3), (3, 6), (5, 8)]

/-- The Betti curve `make_betti_curve` builds for `diagram8`: tag `-1`
marks the half-open correction points (`np.nextafter`). -/
def betti8 : List (Thr × Int) :=
  [((0, 0), 2), ((1, -1), 2), ((1, 0), 2), ((2, -1), 2), ((2, 0), 2),
   ((3, -1), 2), ((3, 0), 2), ((5, -1), 2), ((5, 0), 3), ((6, -1), 3),
   ((6, 0), 1), ((8, -1), 1), ((8, 0), 0)]

/-- The Betti curve built for the malformed one-pair diagram `[(5, 0)]`
(death before birth). -/
def curve50 : List (Thr × Int) := [((0, 0), -1), ((5, -1), -1), ((5, 0), 0)]

/-! ## Properties of the Union-Find embedding -/

namespace UF

theorem pget_oor {p : List Nat} {u : Nat} (h : p.length ≤ u) : pget p u = u := by
  unfold pget
  rw [List.getD_eq_getElem?_getD, List.getElem?_eq_none_iff.mpr h, Option.getD_none]

theorem lt_length_of_not_isRoot {p : List Nat} {u : Nat} (h : pget p u ≠ u) :
    u < p.length := by
  by_contra hc
  exact h (pget_oor (Nat.le_of_not_lt hc))

theorem pget_set_self {p : List Nat} {a b : Nat} (h : a < p.length) :
    pget (p.set a b) a = b := by
  unfold pget
  rw [List.getD_eq_getElem?_getD, List.getElem?_set_self (by simpa using h)]
  rfl

theorem pget_set_ne {p : List Nat} {a b x : Nat} (h : x ≠ a) :
    pget (p.set a b) x = pget p x := by
  unfold pget
  rw [List.getD_eq_getElem?_getD, List.getElem?_set_ne (fun he => h he.symm),
    ← List.getD_eq_getElem?_getD]

theorem pget_range {n u : Nat} : pget (List.range n) u = u := by
  unfold pget
  rcases Nat.lt_or_ge u n with h | h
  · rw [List.getD_eq_getElem?_getD, List.getElem?_range h]; rfl
  · exact pget_oor (by simpa using h)

theorem rootAux_zero (p : List Nat) (u : Nat) : rootAux 0 p u = u := rfl

theorem rootAux_succ (k : Nat) (p : List Nat) (u : Nat) :
    rootAux (k + 1) p u = if pget p u = u then u else rootAux k p (pget p u) := rfl

/-- Once a root is reached, extra fuel does not move it. -/
theorem rootAux_of_isRoot {p : List Nat} {u : Nat} (h : isRoot p u) :
    ∀ k, rootAux k p u = u := by
  intro k
  cases k with
  | zero => rfl
  | succ k => rw [rootAux_succ, if_pos h]

/-- One more unit of fuel after a root has been reached changes nothing. -/
theorem rootAux_succ_of_isRoot {p : List Nat} :
    ∀ (k : Nat) (u : Nat), isRoot p (rootAux k p u) →
      rootAux (k + 1) p u = rootAux k p u := by
  intro k
  induction k with
  | zero =>
    intro u h
    rw [rootAux_zero] at h
    rw [rootAux_zero, rootAux_of_isRoot h]
  | succ k ih =>
    intro u h
    by_cases hr : pget p u = u
    · rw [rootAux_of_isRoot hr, rootAux_of_isRoot hr]
    · rw [rootAux_succ k p u, if_neg hr] at h
      rw [rootAux_succ (k + 1), if_neg hr, rootAux_succ k p u, if_neg hr]
      exact ih (pget p u) h

/-- Fuel monotonicity: once some fuel reaches a root, more fuel gives the
same answer. -/
theorem rootAux_add_of_isRoot {p : List Nat} {k : Nat} {u : Nat}
    (h : isRoot p (rootAux k p u)) :
    ∀ m, rootAux (k + m) p u = rootAux k p u := by
  intro m
  induction m with
  | zero => rfl
  | succ m ih =>
    have : k + (m + 1) = (k + m) + 1 := rfl
    rw [this, rootAux_succ_of_isRoot (k + m) u (by rw [ih]; exact h), ih]

/-- Peeling one step at the far end of the chain. -/
theorem rootAux_succ_of_not_isRoot {p : List Nat} :
    ∀ (k : Nat) (u : Nat), ¬ isRoot p (rootAux k p u) →
      rootAux (k + 1) p u = pget p (rootAux k p u) := by
  intro k
  induction k with
  | zero =>
    intro u h
    rw [rootAux_zero] at h
    rw [rootAux_succ, if_neg h, rootAux_zero, rootAux_zero]
  | succ k ih =>
    intro u h
    by_cases hr : pget p u = u
    · rw [rootAux_of_isRoot hr] at h
      exact absurd hr h
    · rw [rootAux_succ k p u, if_neg hr] at h
      rw [rootAux_succ (k + 1), if_neg hr, ih (pget p u) h,
        rootAux_succ k p u, if_neg hr]

/-- Along a chain that has not yet reached a root, the certificate strictly
decreases. -/
theorem h_rootAux_anti {p : List Nat} {h : Nat → Nat} (hd : Decr p h) {u : Nat}
    {N : Nat} (H : ∀ j, j ≤ N → ¬ isRoot p (rootAux j p u)) :
    ∀ a b, a < b → b ≤ N + 1 → h (rootAux b p u) < h (rootAux a p u) := by
  intro a b hab hbN
  induction b with
  | zero => omega
  | succ b ih =>
    have hbn : b ≤ N := Nat.lt_succ_iff.mp hbN
    have hstep : h (rootAux (b + 1) p u) < h (rootAux b p u) := by
      rw [rootAux_succ_of_not_isRoot b u (H b hbn)]
      exact hd _ (H b hbn)
    rcases Nat.lt_or_ge a b with hab2 | hab2
    · exact lt_trans hstep (ih hab2 (Nat.le_succ_of_le hbn))
    · have : a = b := Nat.le_antisymm (Nat.lt_succ_iff.mp hab) hab2
      rw [this]
      exact hstep

/-- Pigeonhole: starting anywhere, some fuel of at most `p.length` reaches
a root.  The nodes of an unfinished chain are pairwise distinct non-roots,
and there are at most `p.length` such nodes. -/
theorem exists_isRoot_rootAux {p : List Nat} (hwf : WF p) (u : Nat) :
    ∃ j, j ≤ p.length ∧ isRoot p (rootAux j p u) := by
  by_contra hc
  push_neg at hc
  have H : ∀ j, j ≤ p.length → ¬ isRoot p (rootAux j p u) := fun j hj => hc j hj
  obtain ⟨h, hd⟩ := hwf.2
  have hanti := h_rootAux_anti hd H
  have hlt : ∀ j : Fin (p.length + 1), rootAux j.val p u < p.length := by
    intro j
    have := H j.val (Nat.lt_succ_iff.mp j.isLt)
    exact lt_length_of_not_isRoot this
  have hinj : Function.Injective (fun j : Fin (p.length + 1) =>
      (⟨rootAux j.val p u, hlt j⟩ : Fin p.length)) := by
    intro a b hab
    simp only [Fin.mk.injEq] at hab
    by_contra hne
    rcases Nat.lt_or_ge a.val b.val with hlt2 | hlt2
    · have := hanti a.val b.val hlt2 (Nat.le_of_lt b.isLt)
      rw [hab] at this
      exact absurd this (lt_irrefl _)
    · have hlt3 : b.val < a.val := by
        rcases Nat.lt_or_ge b.val a.val with h3 | h3
        · exact h3
        · exact absurd (Fin.ext (Nat.le_antisymm h3 hlt2)) hne
      have := hanti b.val a.val hlt3 (Nat.le_of_lt a.isLt)
      rw [hab] at this
      exact absurd this (lt_irrefl _)
  have := Fintype.card_le_of_injective _ hinj
  simp at this

/-- Fuel `p.length` (and any larger fuel) computes the true root. -/
theorem rootAux_eq_rootD {p : List Nat} (hwf : WF p) {k : Nat}
    (hk : p.length ≤ k) (u : Nat) : rootAux k p u = rootD p u := by
  obtain ⟨j, hj, hroot⟩ := exists_isRoot_rootAux hwf u
  have h1 : rootAux k p u = rootAux j p u := by
    have := rootAux_add_of_isRoot hroot (k - j)
    rwa [Nat.add_sub_cancel' (le_trans hj hk)] at this
  have h2 : rootD p u = rootAux j p u := by
    have := rootAux_add_of_isRoot hroot (p.length + 1 - j)
    rwa [Nat.add_sub_cancel' (le_trans hj (Nat.le_succ _))] at this
  rw [h1, h2]

/-- The root returned by `rootD` is a genuine root. -/
theorem isRoot_rootD {p : List Nat} (hwf : WF p) (u : Nat) :
    isRoot p (rootD p u) := by
  obtain ⟨j, hj, hroot⟩ := exists_isRoot_rootAux hwf u
  have : rootD p u = rootAux j p u := by
    have := rootAux_add_of_isRoot hroot (p.length + 1 - j)
    rwa [Nat.add_sub_cancel' (le_trans hj (Nat.le_succ _))] at this
  rw [this]
  exact hroot

theorem rootD_of_isRoot {p : List Nat} {u : Nat} (h : isRoot p u) :
    rootD p u = u := rootAux_of_isRoot h _

/-- Following one parent link does not change the root. -/
theorem rootD_pget {p : List Nat} (hwf : WF p) (u : Nat) :
    rootD p (pget p u) = rootD p u := by
  by_cases hr : pget p u = u
  · rw [hr]
  · have : rootD p u = rootAux p.length p (pget p u) := by
      unfold rootD
      rw [rootAux_succ, if_neg hr]
    rw [this, rootAux_eq_rootD hwf (le_refl _) (pget p u)]

theorem rootD_rootD {p : List Nat} (hwf : WF p) (u : Nat) :
    rootD p (rootD p u) = rootD p u := rootD_of_isRoot (isRoot_rootD hwf u)

/-- The certificate strictly decreases from a non-root to its root. -/
theorem h_rootD_lt {p : List Nat} {h : Nat → Nat} (hwf : WF p) (hd : Decr p h) :
    ∀ u, ¬ isRoot p u → h (rootD p u) < h u := by
  suffices H : ∀ n u, h u < n → ¬ isRoot p u → h (rootD p u) < h u by
    exact fun u hu => H (h u + 1) u (Nat.lt_succ_self _) hu
  intro n
  induction n with
  | zero => omega
  | succ n ih =>
    intro u hn hu
    rw [← rootD_pget hwf u]
    by_cases hr : isRoot p (pget p u)
    · rw [rootD_of_isRoot hr]
      exact hd u hu
    · exact lt_trans (ih (pget p u) (by have := hd u hu; omega) hr) (hd u hu)

theorem rootD_ne_of_not_isRoot {p : List Nat} (hwf : WF p) {u : Nat}
    (hu : ¬ isRoot p u) : rootD p u ≠ u := by
  obtain ⟨h, hd⟩ := hwf.2
  intro he
  have := h_rootD_lt hwf hd u hu
  rw [he] at this
  exact absurd this (lt_irrefl _)

/-- Roots of in-range vertices are in range. -/
theorem rootD_lt_length {p : List Nat} (hwf : WF p) :
    ∀ u, u < p.length → rootD p u < p.length := by
  obtain ⟨h, hd⟩ := hwf.2
  suffices H : ∀ n u, h u < n → u < p.length → rootD p u < p.length by
    exact fun u hu => H (h u + 1) u (Nat.lt_succ_self _) hu
  intro n
  induction n with
  | zero => omega
  | succ n ih =>
    intro u hn hu
    by_cases hr : isRoot p u
    · rw [rootD_of_isRoot hr]; exact hu
    · rw [← rootD_pget hwf u]
      exact ih (pget p u) (by have := hd u hr; omega) (hwf.1 u hu)

/-- A path-compression step — pointing a non-root directly at its root —
preserves lengths, roots and well-formedness. -/
theorem set_rootD {q : List Nat} (hwf : WF q) {u : Nat} (hu : ¬ isRoot q u) :
    (q.set u (rootD q u)).length = q.length
    ∧ WF (q.set u (rootD q u))
    ∧ ∀ y, rootD (q.set u (rootD q u)) y = rootD q y := by
  set r := rootD q u with hr
  set q2 := q.set u r with hq2
  have hulen : u < q.length := lt_length_of_not_isRoot hu
  have hlen : q2.length = q.length := List.length_set q u r
  have hpu : pget q2 u = r := pget_set_self hulen
  have hpne : ∀ y, y ≠ u → pget q2 y = pget q y := fun y hy => pget_set_ne hy
  obtain ⟨h, hd⟩ := hwf.2
  have hrne : r ≠ u := by rw [hr]; exact rootD_ne_of_not_isRoot hwf hu
  have hd2 : Decr q2 h := by
    intro y hy
    by_cases hyu : y = u
    · subst hyu
      rw [hpu]
      exact h_rootD_lt hwf hd y hu
    · rw [hpne y hyu] at hy ⊢
      exact hd y hy
  have hwf2 : WF q2 := by
    refine ⟨?_, h, hd2⟩
    intro x hx
    by_cases hxu : x = u
    · subst hxu
      rw [hpu, hlen]
      exact rootD_lt_length hwf x hulen
    · rw [hpne x hxu, hlen]
      exact hwf.1 x (by rwa [hlen] at hx)
  refine ⟨hlen, hwf2, ?_⟩
  have hroot_r : isRoot q r := isRoot_rootD hwf u
  have hroot_r2 : isRoot q2 r := by
    rw [isRoot, hpne r hrne]
    exact hroot_r
  suffices H : ∀ n y, h y < n → rootD q2 y = rootD q y by
    exact fun y => H (h y + 1) y (Nat.lt_succ_self _)
  intro n
  induction n with
  | zero => omega
  | succ n ih =>
    intro y hn
    by_cases hy : isRoot q y
    · have hyu : y ≠ u := fun he => hu (he ▸ hy)
      have : isRoot q2 y := by rw [isRoot, hpne y hyu]; exact hy
      rw [rootD_of_isRoot this, rootD_of_isRoot hy]
    · by_cases hyu : y = u
      · subst hyu
        rw [← rootD_pget hwf2 y, hpu, rootD_of_isRoot hroot_r2, hr]
      · rw [← rootD_pget hwf2 y, hpne y hyu, ← rootD_pget hwf y]
        exact ih (pget q y) (by have := hd y hy; omega)

/-- Linking one root under another (`parent[a] = b` with `a`, `b` roots):
the merged tree's roots are redirected from `a` to `b`; well-formedness is
preserved. -/
theorem set_root_root {q : List Nat} (hwf : WF q) {a b : Nat}
    (ha : isRoot q a) (hb : isRoot q b)
    (hal : a ≠ b → a < q.length) (hbl : a ≠ b → b < q.length) :
    (q.set a b).length = q.length
    ∧ WF (q.set a b)
    ∧ ∀ y, rootD (q.set a b) y = if rootD q y = a then b else rootD q y := by
  by_cases hab : a = b
  · subst hab
    have hpt : ∀ y, pget (q.set a a) y = pget q y := by
      intro y
      by_cases hy : y = a
      · rw [hy]
        rcases Nat.lt_or_ge a q.length with h1 | h1
        · rw [pget_set_self h1]
          exact ha.symm
        · rw [pget_oor (by rw [List.length_set]; exact h1), pget_oor h1]
      · exact pget_set_ne hy
    have hroot_eq : ∀ k y, rootAux k (q.set a a) y = rootAux k q y := by
      intro k
      induction k with
      | zero => intro y; rfl
      | succ k ih =>
        intro y
        rw [rootAux_succ, rootAux_succ, hpt y, ih]
    have hlen : (q.set a a).length = q.length := List.length_set q a a
    obtain ⟨h, hd⟩ := hwf.2
    refine ⟨hlen, ⟨?_, h, ?_⟩, ?_⟩
    · intro x hx
      rw [hpt x, hlen]
      exact hwf.1 x (by rwa [hlen] at hx)
    · intro y hy
      rw [hpt y] at hy ⊢
      exact hd y hy
    · intro y
      unfold rootD
      rw [hlen, hroot_eq]
      by_cases hy : rootAux (q.length + 1) q y = a
      · rw [if_pos hy, hy]
      · rw [if_neg hy]
  · have hal2 := hal hab
    have hbl2 := hbl hab
    set q2 := q.set a b with hq2
    have hlen : q2.length = q.length := List.length_set q a b
    have hpa : pget q2 a = b := pget_set_self hal2
    have hpne : ∀ y, y ≠ a → pget q2 y = pget q y := fun y hy => pget_set_ne hy
    obtain ⟨h, hd⟩ := hwf.2
    have hd2 : Decr q2 (fun x => h x + (if rootD q x = a then h b + 1 else 0)) := by
      intro y hy
      by_cases hya : y = a
      · rw [hya] at hy ⊢
        rw [hpa]
        have h1 : rootD q a = a := rootD_of_isRoot ha
        have h2 : rootD q b = b := rootD_of_isRoot hb
        simp only [h1, h2, if_neg (show ¬ b = a from fun he => hab he.symm),
          eq_self_iff_true, if_true]
        omega
      · rw [hpne y hya] at hy ⊢
        have h1 : rootD q (pget q y) = rootD q y := rootD_pget hwf y
        simp only [h1]
        have := hd y hy
        by_cases h2 : rootD q y = a
        · simp only [h2, if_pos rfl]; omega
        · simp only [if_neg h2]; omega
    have hwf2 : WF q2 := by
      refine ⟨?_, _, hd2⟩
      intro x hx
      by_cases hxa : x = a
      · subst hxa
        rw [hpa, hlen]
        exact hbl2
      · rw [hpne x hxa, hlen]
        exact hwf.1 x (by rwa [hlen] at hx)
    refine ⟨hlen, hwf2, ?_⟩
    have hroot_b2 : isRoot q2 b := by
      rw [isRoot, hpne b (fun he => hab he.symm)]
      exact hb
    suffices H : ∀ n y, h y < n → rootD q2 y = if rootD q y = a then b else rootD q y by
      exact fun y => H (h y + 1) y (Nat.lt_succ_self _)
    intro n
    induction n with
    | zero => omega
    | succ n ih =>
      intro y hn
      by_cases hy : isRoot q y
      · by_cases hya : y = a
        · subst hya
          rw [← rootD_pget hwf2 y, hpa, rootD_of_isRoot hroot_b2,
            rootD_of_isRoot hy, if_pos rfl]
        · have : isRoot q2 y := by rw [isRoot, hpne y hya]; exact hy
          rw [rootD_of_isRoot this, rootD_of_isRoot hy, if_neg hya]
      · have hya : y ≠ a := fun he => hy (he ▸ ha)
        rw [← rootD_pget hwf2 y, hpne y hya,
          ih (pget q y) (by have := hd y hy; omega), rootD_pget hwf y]

theorem findAux_zero (p : List Nat) (u : Nat) : findAux 0 p u = (u, p) := rfl

theorem findAux_succ (k : Nat) (p : List Nat) (u : Nat) :
    findAux (k + 1) p u =
      if pget p u = u then (u, p)
      else ((findAux k p (pget p u)).1,
        (findAux k p (pget p u)).2.set u (findAux k p (pget p u)).1) := rfl

/-- Specification of path-compressing `findAux`, given sufficient fuel: it
returns the root, preserves the length, the root assignment and
well-formedness, and every parent entry is either unchanged or redirected
to its own root. -/
theorem findAux_spec {p : List Nat} (hwf : WF p) :
    ∀ (k : Nat) (u : Nat), isRoot p (rootAux k p u) →
      (findAux k p u).1 = rootD p u
      ∧ (findAux k p u).2.length = p.length
      ∧ WF (findAux k p u).2
      ∧ (∀ y, rootD (findAux k p u).2 y = rootD p y)
      ∧ (∀ y, pget (findAux k p u).2 y = pget p y
          ∨ pget (findAux k p u).2 y = rootD p y) := by
  intro k
  induction k with
  | zero =>
    intro u hfuel
    rw [rootAux_zero] at hfuel
    rw [findAux_zero]
    exact ⟨(rootD_of_isRoot hfuel).symm, rfl, hwf, fun y => rfl, fun y => Or.inl rfl⟩
  | succ k ih =>
    intro u hfuel
    by_cases hr : pget p u = u
    · rw [findAux_succ, if_pos hr]
      exact ⟨(rootD_of_isRoot hr).symm, rfl, hwf, fun y => rfl, fun y => Or.inl rfl⟩
    · rw [rootAux_succ, if_neg hr] at hfuel
      obtain ⟨ih1, ih2, ih3, ih4, ih5⟩ := ih (pget p u) hfuel
      have hru : rootD p (pget p u) = rootD p u := rootD_pget hwf u
      have hne : rootD p u ≠ u := rootD_ne_of_not_isRoot hwf hr
      have hulen : u < p.length := lt_length_of_not_isRoot hr
      have hnr2 : ¬ isRoot (findAux k p (pget p u)).2 u := by
        rcases ih5 u with h5 | h5
        · rw [isRoot, h5]; exact hr
        · rw [isRoot, h5]; exact hne
      have hval : (findAux k p (pget p u)).1 =
          rootD (findAux k p (pget p u)).2 u := by
        rw [ih1, hru, ih4 u]
      obtain ⟨s1, s2, s3⟩ := set_rootD ih3 hnr2
      rw [findAux_succ, if_neg hr]
      refine ⟨by rw [ih1, hru], ?_, ?_, ?_, ?_⟩
      · simp only [hval]
        rw [s1, ih2]
      · simp only [hval]
        exact s2
      · intro y
        simp only [hval]
        rw [s3 y, ih4 y]
      · intro y
        by_cases hyu : y = u
        · right
          rw [hyu]
          rw [show ((findAux k p (pget p u)).2.set u (findAux k p (pget p u)).1)
              = ((findAux k p (pget p u)).2.set u
                (rootD (findAux k p (pget p u)).2 u)) by rw [← hval]]
          rw [pget_set_self (by rw [ih2]; exact hulen), ih4 u]
        · rw [pget_set_ne hyu]
          exact ih5 y

/-- Specification of `find`: fuel `length + 1` always suffices on
well-formed lists. -/
theorem find_spec {p : List Nat} (hwf : WF p) (u : Nat) :
    (find p u).1 = rootD p u
    ∧ (find p u).2.length = p.length
    ∧ WF (find p u).2
    ∧ (∀ y, rootD (find p u).2 y = rootD p y) := by
  have hfuel : isRoot p (rootAux (p.length + 1) p u) := isRoot_rootD hwf u
  obtain ⟨h1, h2, h3, h4, _⟩ := findAux_spec hwf (p.length + 1) u hfuel
  exact ⟨h1, h2, h3, h4⟩

/-- Specification of the directional `merge`: the root of `u`'s component
is redirected to the root of `v`'s component (which survives), every other
root is unchanged, and well-formedness is preserved. -/
theorem merge_spec {p : List Nat} (hwf : WF p) {u v : Nat}
    (hu : u < p.length) (hv : v < p.length) :
    (merge p u v).length = p.length
    ∧ WF (merge p u v)
    ∧ ∀ y, rootD (merge p u v) y =
        if rootD p y = rootD p u then rootD p v else rootD p y := by
  by_cases huv : u = v
  · unfold merge
    rw [if_pos huv]
    refine ⟨rfl, hwf, fun y => ?_⟩
    subst huv
    by_cases h : rootD p y = rootD p u
    · rw [if_pos h, h]
    · rw [if_neg h]
  · obtain ⟨v1, v2, v3, v4⟩ := find_spec hwf v
    obtain ⟨u1, u2, u3, u4⟩ := find_spec v3 u
    have hq : ∀ y, rootD (find (find p v).2 u).2 y = rootD p y := by
      intro y
      rw [u4 y, v4 y]
    have hu1 : (find (find p v).2 u).1 = rootD p u := by rw [u1, v4 u]
    have hrua : isRoot (find (find p v).2 u).2 (rootD p u) := by
      have h0 := isRoot_rootD u3 u
      rwa [hq u] at h0
    have hrvb : isRoot (find (find p v).2 u).2 (rootD p v) := by
      have h0 := isRoot_rootD u3 v
      rwa [hq v] at h0
    have hqlen : (find (find p v).2 u).2.length = p.length := by rw [u2, v2]
    obtain ⟨s1, s2, s3⟩ := set_root_root u3 hrua hrvb
      (fun _ => by rw [hqlen]; exact rootD_lt_length hwf u hu)
      (fun _ => by rw [hqlen]; exact rootD_lt_length hwf v hv)
    have hm : merge p u v =
        (find (find p v).2 u).2.set (rootD p u) (rootD p v) := by
      simp only [merge, if_neg huv]
      rw [hu1, v1]
    rw [hm]
    refine ⟨by rw [s1, hqlen], s2, fun y => ?_⟩
    rw [s3 y, hq y]

/-- The initial parent list `[0, 1, ..., n-1]` is well-formed. -/
theorem wf_range (n : Nat) : WF (List.range n) := by
  refine ⟨?_, fun _ => 0, ?_⟩
  · intro x hx
    rw [pget_range]
    simpa using hx
  · intro u hu
    exact absurd pget_range hu

theorem rootD_range (n u : Nat) : rootD (List.range n) u = u :=
  rootD_of_isRoot pget_range

end UF

/-! ## Properties of the stable argsort -/

theorem insertIdxSorted_nil (w : List Int) (i : Nat) :
    insertIdxSorted w i [] = [i] := rfl

theorem insertIdxSorted_cons (w : List Int) (i j : Nat) (rest : List Nat) :
    insertIdxSorted w i (j :: rest) =
      if w.getD i 0 < w.getD j 0 then i :: j :: rest
      else j :: insertIdxSorted w i rest := rfl

theorem insertIdxSorted_length (w : List Int) (i : Nat) :
    ∀ l : List Nat, (insertIdxSorted w i l).length = l.length + 1 := by
  intro l
  induction l with
  | nil => rfl
  | cons j rest ih =>
    rw [insertIdxSorted_cons]
    by_cases h : w.getD i 0 < w.getD j 0
    · rw [if_pos h]
      simp
    · rw [if_neg h]
      simp [ih]

theorem mem_insertIdxSorted (w : List Int) (i : Nat) :
    ∀ (l : List Nat) (a : Nat), a ∈ insertIdxSorted w i l ↔ a = i ∨ a ∈ l := by
  intro l
  induction l with
  | nil => simp [insertIdxSorted_nil]
  | cons j rest ih =>
    intro a
    rw [insertIdxSorted_cons]
    by_cases h : w.getD i 0 < w.getD j 0
    · rw [if_pos h]
      simp only [List.mem_cons]
    · rw [if_neg h]
      simp only [List.mem_cons, ih a]
      tauto

theorem argsortStable_length (w : List Int) :
    (argsortStable w).length = w.length := by
  unfold argsortStable
  have H : ∀ (l : List Nat) (acc : List Nat),
      (l.foldl (fun acc i => insertIdxSorted w i acc) acc).length
        = acc.length + l.length := by
    intro l
    induction l with
    | nil => intro acc; simp
    | cons j rest ih =>
      intro acc
      simp only [List.foldl_cons, ih, insertIdxSorted_length, List.length_cons]
      omega
  rw [H]
  simp

theorem mem_argsortStable (w : List Int) (a : Nat) :
    a ∈ argsortStable w ↔ a < w.length := by
  unfold argsortStable
  have H : ∀ (l : List Nat) (acc : List Nat),
      a ∈ l.foldl (fun acc i => insertIdxSorted w i acc) acc ↔ a ∈ l ∨ a ∈ acc := by
    intro l
    induction l with
    | nil => intro acc; simp
    | cons j rest ih =>
      intro acc
      simp only [List.foldl_cons, ih, mem_insertIdxSorted, List.mem_cons]
      tauto
  rw [H]
  simp [List.mem_range]

theorem sortIndices_length (order : Order) (w : List Int) :
    (sortIndices order w).length = w.length := by
  cases order with
  | sublevel => exact argsortStable_length w
  | superlevel =>
    unfold sortIndices
    rw [argsortStable_length, List.length_map]

/-! ## Claim theorems -/

theorem sortIndices_nil (order : Order) : sortIndices order [] = [] := by
  cases order <;> rfl

/-- **C9**: for the 5-vertex GFL graph (vertex weights `[1,4,3,2,1]`, edges
`(0,1),(1,2),(2,3),(2,4)` with weights `[4,4,3,3]`) under the sublevel
order, `calculate_persistence_diagrams` returns a 0-dimensional diagram
containing the pairs `(1,4)` and `(2,3)`. -/
theorem C9_gfl_graph_diagram :
    calculate_persistence_diagrams gflGraph Order.sublevel = some (gflPd0, [])
    ∧ ((1 : Int), (4 : Int)) ∈ gflPd0 ∧ ((2 : Int), (3 : Int)) ∈ gflPd0 := by
  refine ⟨by decide, by decide, by decide⟩

/-- **C2** (code bug): the engine is meant to treat the root with the
smaller *position in the vertex sort order* (rank) as older and let it
survive the merge, but `graphs.py:277` compares the argsort *entries*
`vertex_indices[root]` instead of ranks.  On `rankBugGraph` (weights
`[3,1,2]`, one edge): root `1` has the smaller rank (its weight `1` is the
global minimum), yet the code merges root `1` away and lets root `0`
survive, so the recorded diagram kills the oldest component. -/
theorem C2_graph_rank_confusion_bug :
    calculate_persistence_diagrams rankBugGraph Order.sublevel
      = some ([(1, 5), (3, 5), (2, 5)], [])
    ∧ (argsortStable rankBugGraph.vertexWeights).indexOf 1
        < (argsortStable rankBugGraph.vertexWeights).indexOf 0
    ∧ (graphEdgeFold rankBugGraph Order.sublevel).uf = [0, 0, 2]
    ∧ UF.rootD (graphEdgeFold rankBugGraph Order.sublevel).uf 1 = 0 := by
  refine ⟨by decide, by decide, by decide, by decide⟩

/-- **C5** (code bug): with an empty edge set the code evaluates
`edge_weights[edge_indices[-1]]` on an empty sorted-edge array and raises
`IndexError` (modelled by `none`), for every graph and either order —
instead of returning the `k` pairs with birth = death = vertex weight that
the claim (and the spec's required guard) describes. -/
theorem C5_empty_edges_raises (g : WeightedGraph) (order : Order)
    (h : g.edgeWeights = []) :
    calculate_persistence_diagrams g order = none := by
  unfold calculate_persistence_diagrams
  rw [h, sortIndices_nil]
  rfl

theorem C5_empty_edges_raises_witness :
    calculate_persistence_diagrams ⟨1, [], [7], []⟩ Order.sublevel = none :=
  C5_empty_edges_raises ⟨1, [], [7], []⟩ Order.sublevel rfl

/-- **C1** counterexample: on the GFL graph, the first processed non-cycle
edge is edge `2 = (2,3)` with weight `3`; its two current roots are `2` and
`3`, the older root is `3` (smaller rank — and also smaller
`vertex_indices` entry), whose vertex weight is `2`.  The claim therefore
predicts the pair `(2,3)`, but the engine appends `(3,3)` — the weight at
the *younger* root. -/
theorem C1_graph_birth_older_root_cex :
    let g := gflGraph
    let vi := argsortStable g.vertexWeights
    let s0 : GraphState := ⟨List.range 5, [], []⟩
    let e := (sortIndices Order.sublevel g.edgeWeights).getD 0 0
    let ru := (UF.find s0.uf (g.edges.getD e (0, 0)).1).1
    let rv := (UF.find (UF.find s0.uf (g.edges.getD e (0, 0)).1).2
      (g.edges.getD e (0, 0)).2).1
    ru ≠ rv
    ∧ specOlderRoot vi ru rv = rv
    ∧ codeYoungerRoot vi ru rv ≠ specOlderRoot vi ru rv
    ∧ (processEdge g vi s0 e).pd0 = [((3 : Int), (3 : Int))]
    ∧ (g.vertexWeights.getD (specOlderRoot vi ru rv) 0, g.edgeWeights.getD e 0)
        = ((2 : Int), (3 : Int))
    ∧ ((3 : Int), (3 : Int)) ≠ ((2 : Int), (3 : Int)) := by
  refine ⟨by decide, by decide, by decide, by decide, by decide, by decide⟩

/-- **C1** amended: for every graph, every sorted vertex-index array, every
loop state and every edge whose two endpoints currently lie in distinct
components, the pair appended to the 0-dimensional diagram is
(vertex weight at the **younger** root — the root the engine merges away —,
edge weight). -/
theorem C1_graph_birth_younger_root (g : WeightedGraph) (vi : List Nat)
    (s : GraphState) (ei : Nat)
    (h : (UF.find s.uf (g.edges.getD ei (0, 0)).1).1
        ≠ (UF.find (UF.find s.uf (g.edges.getD ei (0, 0)).1).2
            (g.edges.getD ei (0, 0)).2).1) :
    (processEdge g vi s ei).pd0 = s.pd0 ++
      [(g.vertexWeights.getD
          (codeYoungerRoot vi
            (UF.find s.uf (g.edges.getD ei (0, 0)).1).1
            (UF.find (UF.find s.uf (g.edges.getD ei (0, 0)).1).2
              (g.edges.getD ei (0, 0)).2).1) 0,
        g.edgeWeights.getD ei 0)] := by
  unfold processEdge codeYoungerRoot
  rw [if_neg h]

theorem C1_graph_birth_younger_root_witness :
    (UF.find (⟨List.range 5, [], []⟩ : GraphState).uf
        ((gflGraph.edges.getD 2 (0, 0)).1)).1
      ≠ (UF.find (UF.find (⟨List.range 5, [], []⟩ : GraphState).uf
            ((gflGraph.edges.getD 2 (0, 0)).1)).2
          ((gflGraph.edges.getD 2 (0, 0)).2)).1
    ∧ (processEdge gflGraph [0, 4, 3, 2, 1] ⟨List.range 5, [], []⟩ 2).pd0 =
        [] ++ [(gflGraph.vertexWeights.getD
            (codeYoungerRoot [0, 4, 3, 2, 1]
              (UF.find (⟨List.range 5, [], []⟩ : GraphState).uf
                ((gflGraph.edges.getD 2 (0, 0)).1)).1
              (UF.find (UF.find (⟨List.range 5, [], []⟩ : GraphState).uf
                  ((gflGraph.edges.getD 2 (0, 0)).1)).2
                ((gflGraph.edges.getD 2 (0, 0)).2)).1) 0,
          gflGraph.edgeWeights.getD 2 0)] :=
  ⟨by decide,
    C1_graph_birth_younger_root gflGraph [0, 4, 3, 2, 1]
      ⟨List.range 5, [], []⟩ 2 (by decide)⟩

/-- **C10**: for inputs of length 0 or 1 and either order,
`calculate_persistence_diagrams_1d` runs without error and returns the
empty diagram. -/
theorem C10_short_input_empty_diagram (f : List Int) (order : Order)
    (h : f.length ≤ 1) :
    calculate_persistence_diagrams_1d f order = [] := by
  rcases f with _ | ⟨a, f2⟩
  · cases order <;> rfl
  · rcases f2 with _ | ⟨b, f3⟩
    · have hlt : decide (a < a) = false := decide_eq_false (lt_irrefl a)
      have hgt : decide (a > a) = false := decide_eq_false (lt_irrefl a)
      have hidx : ∀ order2, sortIndices order2 [a] = [0] := by
        intro order2
        cases order2 <;> rfl
      cases order with
      | sublevel =>
        unfold calculate_persistence_diagrams_1d
        rw [hidx]
        simp [processIndex, predB, hlt]
      | superlevel =>
        unfold calculate_persistence_diagrams_1d
        rw [hidx]
        simp [processIndex, predB, hgt]
    · simp at h

theorem C10_short_input_empty_diagram_witness :
    calculate_persistence_diagrams_1d [(5 : Int)] Order.sublevel = [] :=
  C10_short_input_empty_diagram [(5 : Int)] Order.sublevel (by decide)

/-- **C4**: for every input of length at least 2 and either order, the
diagram is non-empty and contains the pair of values at the first and last
index in filtration order. -/
theorem C4_global_pair_present (f : List Int) (order : Order)
    (h : 2 ≤ f.length) :
    calculate_persistence_diagrams_1d f order ≠ []
    ∧ (f.getD ((sortIndices order f).getD 0 0) 0,
        f.getD ((sortIndices order f).getLastD 0) 0)
        ∈ calculate_persistence_diagrams_1d f order := by
  have hlen : 2 ≤ (sortIndices order f).length := by
    rw [sortIndices_length]; exact h
  simp only [calculate_persistence_diagrams_1d]
  rw [if_pos hlen]
  set i0 := (sortIndices order f).getD 0 0 with hi0
  set il := (sortIndices order f).getLastD 0 with hil
  set S := (sortIndices order f).foldl (processIndex f (predB order) f.length)
    ⟨List.range f.length, []⟩ with hS
  by_cases hmem : (i0, il) ∈ S.pairs
  · rw [if_pos hmem]
    refine ⟨?_, List.mem_map_of_mem _ hmem⟩
    intro hnil
    rw [List.map_eq_nil_iff] at hnil
    rw [hnil] at hmem
    exact List.not_mem_nil _ hmem
  · rw [if_neg hmem]
    have hmem2 : (i0, il) ∈ S.pairs ++ [(i0, il)] := by simp
    refine ⟨?_, List.mem_map_of_mem _ hmem2⟩
    intro hnil
    rw [List.map_eq_nil_iff] at hnil
    exact absurd hnil (by simp)

theorem C4_global_pair_present_witness :
    calculate_persistence_diagrams_1d [(0 : Int), 1] Order.sublevel ≠ []
    ∧ (([(0 : Int), 1].getD ((sortIndices Order.sublevel [(0 : Int), 1]).getD 0 0) 0,
        [(0 : Int), 1].getD ((sortIndices Order.sublevel [(0 : Int), 1]).getLastD 0) 0)
        ∈ calculate_persistence_diagrams_1d [(0 : Int), 1] Order.sublevel) :=
  C4_global_pair_present [(0 : Int), 1] Order.sublevel (by decide)

/-- Negating all values turns a value lookup in the negated series into the
negated lookup. -/
theorem getD_map_neg (f : List Int) (k : Nat) :
    (f.map (fun z => -z)).getD k 0 = -(f.getD k 0) := by
  rw [List.getD_eq_getElem?_getD, List.getD_eq_getElem?_getD, List.getElem?_map]
  cases f[k]? with
  | none => simp
  | some a => rfl

theorem predB_neg (a b : Int) :
    predB Order.superlevel (-a) (-b) = predB Order.sublevel a b := by
  simp only [predB, gt_iff_lt]
  exact decide_eq_decide.mpr ⟨fun hh => by linarith, fun hh => by linarith⟩

theorem map_neg_map_neg (f : List Int) :
    (f.map (fun z => -z)).map (fun z => -z) = f := by
  rw [List.map_map]
  have : ((fun z : Int => -z) ∘ fun z : Int => -z) = id := by
    funext z
    simp
  rw [this, List.map_id]

/-- The sweep step on the negated series under the superlevel predicate
coincides with the step on the original series under the sublevel
predicate. -/
theorem processIndex_neg (f : List Int) (n : Nat) (s : FnState) (i : Nat) :
    processIndex (f.map (fun z => -z)) (predB Order.superlevel) n s i
      = processIndex f (predB Order.sublevel) n s i := by
  simp only [processIndex, getD_map_neg, ← apply_ite (fun z : Int => -z),
    predB_neg]

theorem foldl_processIndex_neg (f : List Int) (n : Nat) :
    ∀ (l : List Nat) (s : FnState),
      l.foldl (processIndex (f.map (fun z => -z)) (predB Order.superlevel) n) s
        = l.foldl (processIndex f (predB Order.sublevel) n) s := by
  intro l
  induction l with
  | nil => intro s; rfl
  | cons i rest ih =>
    intro s
    simp only [List.foldl_cons, processIndex_neg, ih]

/-- **C6** counterexample: for `f = [0, 1]`, the sublevel diagram of `f`
contains `(0, 1)` but the superlevel diagram of `-f` does not (it contains
`(0, -1)` instead): the two diagrams do not contain the same set of pairs. -/
theorem C6_duality_cex :
    ((0 : Int), (1 : Int)) ∈ calculate_persistence_diagrams_1d [0, 1] Order.sublevel
    ∧ ((0 : Int), (1 : Int)) ∉
        calculate_persistence_diagrams_1d [0, -1] Order.superlevel
    ∧ [(0 : Int), -1] = [(0 : Int), 1].map (fun z => -z) := by
  refine ⟨by decide, by decide, by decide⟩

/-- **C6** amended: the superlevel diagram of `-f` is the sublevel diagram
of `f` with both coordinates of every pair negated (equal as lists, hence
as sets). -/
theorem C6_duality_negated_pairs (f : List Int) :
    calculate_persistence_diagrams_1d (f.map (fun z => -z)) Order.superlevel
      = (calculate_persistence_diagrams_1d f Order.sublevel).map
          (fun pr => (-pr.1, -pr.2)) := by
  have hidx : sortIndices Order.superlevel (f.map (fun z => -z))
      = sortIndices Order.sublevel f := by
    unfold sortIndices
    rw [map_neg_map_neg]
  have hn : (f.map (fun z => -z)).length = f.length := List.length_map f _
  simp only [calculate_persistence_diagrams_1d]
  rw [hidx, hn, foldl_processIndex_neg]
  rw [List.map_map]
  have hfun : (fun cd : Nat × Nat =>
        ((f.map (fun z => -z)).getD cd.1 0, (f.map (fun z => -z)).getD cd.2 0))
      = ((fun pr : Int × Int => (-pr.1, -pr.2))
          ∘ fun cd : Nat × Nat => (f.getD cd.1 0, f.getD cd.2 0)) := by
    funext cd
    simp only [Function.comp]
    rw [getD_map_neg, getD_map_neg]
  rw [hfun]

/-! ### Betti-curve lemmas -/

theorem eventPoints_nil : eventPoints [] = [] := rfl

theorem eventPoints_cons (pr : Rat × Rat) (rest : List (Rat × Rat)) :
    eventPoints (pr :: rest) =
      (pr.1, true) :: (pr.2, false) :: eventPoints rest := rfl

/-- Every event value comes from a creation or destruction value of some
diagram pair. -/
theorem eventPoints_val :
    ∀ (d : List (Rat × Rat)) (e : Rat × Bool), e ∈ eventPoints d →
      ∃ pr ∈ d, e.1 = pr.1 ∨ e.1 = pr.2 := by
  intro d
  induction d with
  | nil => intro e he; exact absurd (eventPoints_nil ▸ he) (List.not_mem_nil e)
  | cons pr rest ih =>
    intro e he
    rw [eventPoints_cons] at he
    rcases List.mem_cons.mp he with he1 | he2
    · exact ⟨pr, List.mem_cons_self pr rest, Or.inl (by rw [he1])⟩
    · rcases List.mem_cons.mp he2 with he3 | he4
      · exact ⟨pr, List.mem_cons_self pr rest, Or.inr (by rw [he3])⟩
      · obtain ⟨pr2, hpr2, hv⟩ := ih e he4
        exact ⟨pr2, List.mem_cons_of_mem pr hpr2, hv⟩

theorem insertEvent_nil (e : Rat × Bool) : insertEvent e [] = [e] := rfl

theorem insertEvent_cons (e t : Rat × Bool) (rest : List (Rat × Bool)) :
    insertEvent e (t :: rest) =
      if e.1 < t.1 then e :: t :: rest else t :: insertEvent e rest := rfl

theorem mem_insertEvent (e : Rat × Bool) :
    ∀ (l : List (Rat × Bool)) (a : Rat × Bool),
      a ∈ insertEvent e l ↔ a = e ∨ a ∈ l := by
  intro l
  induction l with
  | nil => simp [insertEvent_nil]
  | cons t rest ih =>
    intro a
    rw [insertEvent_cons]
    by_cases h : e.1 < t.1
    · rw [if_pos h]
      simp only [List.mem_cons]
    · rw [if_neg h]
      simp only [List.mem_cons, ih a]
      tauto

theorem insertEvent_length (e : Rat × Bool) :
    ∀ l : List (Rat × Bool), (insertEvent e l).length = l.length + 1 := by
  intro l
  induction l with
  | nil => rfl
  | cons t rest ih =>
    rw [insertEvent_cons]
    by_cases h : e.1 < t.1
    · rw [if_pos h]
      simp
    · rw [if_neg h]
      simp [ih]

theorem mem_sortEvents (l : List (Rat × Bool)) (a : Rat × Bool) :
    a ∈ sortEvents l ↔ a ∈ l := by
  unfold sortEvents
  have H : ∀ (l2 : List (Rat × Bool)) (acc : List (Rat × Bool)),
      a ∈ l2.foldl (fun acc e => insertEvent e acc) acc ↔ a ∈ l2 ∨ a ∈ acc := by
    intro l2
    induction l2 with
    | nil => intro acc; simp
    | cons e rest ih =>
      intro acc
      simp only [List.foldl_cons, ih, mem_insertEvent, List.mem_cons]
      tauto
  rw [H]
  simp

theorem sortEvents_length (l : List (Rat × Bool)) :
    (sortEvents l).length = l.length := by
  unfold sortEvents
  have H : ∀ (l2 : List (Rat × Bool)) (acc : List (Rat × Bool)),
      (l2.foldl (fun acc e => insertEvent e acc) acc).length
        = acc.length + l2.length := by
    intro l2
    induction l2 with
    | nil => intro acc; simp
    | cons e rest ih =>
      intro acc
      simp only [List.foldl_cons, ih, insertEvent_length, List.length_cons]
      omega
  rw [H]
  simp

/-- Every value appearing in the running-count list is an event value. -/
theorem runningCounts_val :
    ∀ (l : List (Rat × Bool)) (n : Int) (pe : Rat × Int),
      pe ∈ runningCounts l n → ∃ b, (pe.1, b) ∈ l := by
  intro l
  induction l with
  | nil => intro n pe hpe; exact absurd hpe (List.not_mem_nil pe)
  | cons e rest ih =>
    intro n pe hpe
    unfold runningCounts at hpe
    rcases List.mem_cons.mp hpe with h1 | h2
    · exact ⟨e.2, by rw [h1]; simp⟩
    · obtain ⟨b, hb⟩ := ih _ pe h2
      exact ⟨b, List.mem_cons_of_mem _ hb⟩

/-- `process_event_points` keeps every stored threshold value (and, when
the incoming value satisfies `P`, the tracked previous value) inside a
predicate `P` on event values. -/
theorem processEventPoint_out_inv {P : Rat → Prop} {s : BCState}
    (hs : P s.prev_p ∧ ∀ t ∈ s.out, P t.1.1) (p : Rat) (v : Int) :
    ∀ t ∈ (processEventPoint s p v).out, P t.1.1 := by
  intro t ht
  unfold processEventPoint at ht
  by_cases he : s.prev_p = p
  · rw [if_pos he] at ht
    exact hs.2 t ht
  · rw [if_neg he] at ht
    simp only at ht
    rcases hlast : s.out.getLast? with _ | tl
    · rw [hlast] at ht
      simp only [List.mem_append, List.mem_cons, List.not_mem_nil,
        or_false] at ht
      rcases ht with h1 | h2
      · exact hs.2 t h1
      · rw [h2]
        exact hs.1
    · rw [hlast] at ht
      simp only [List.mem_append, List.mem_cons, List.not_mem_nil,
        or_false] at ht
      rcases ht with (h1 | h2) | h3
      · exact hs.2 t h1
      · rw [h2]
        exact hs.1
      · rw [h3]
        exact hs.1

theorem processEventPoint_inv {P : Rat → Prop} {s : BCState}
    (hs : P s.prev_p ∧ ∀ t ∈ s.out, P t.1.1) {p : Rat} (hp : P p) (v : Int) :
    P (processEventPoint s p v).prev_p
    ∧ ∀ t ∈ (processEventPoint s p v).out, P t.1.1 := by
  refine ⟨?_, processEventPoint_out_inv hs p v⟩
  unfold processEventPoint
  by_cases he : s.prev_p = p
  · rw [if_pos he]
    exact hs.1
  · rw [if_neg he]
    exact hp

theorem foldl_processEventPoint_inv {P : Rat → Prop} :
    ∀ (l : List (Rat × Int)) (s : BCState),
      (∀ pe ∈ l, P pe.1) → (P s.prev_p ∧ ∀ t ∈ s.out, P t.1.1) →
      P ((l.foldl (fun s pe => processEventPoint s pe.1 pe.2) s)).prev_p
      ∧ ∀ t ∈ (l.foldl (fun s pe => processEventPoint s pe.1 pe.2) s).out,
          P t.1.1 := by
  intro l
  induction l with
  | nil => intro s _ hs; exact hs
  | cons pe rest ih =>
    intro s hl hs
    simp only [List.foldl_cons]
    exact ih _ (fun q hq => hl q (List.mem_cons_of_mem pe hq))
      (processEventPoint_inv hs (hl pe (List.mem_cons_self pe rest)) pe.2)

/-- All thresholds stored in a Betti curve carry event values of the
diagram: any predicate true of every creation and destruction value is
true of every stored threshold value. -/
theorem make_betti_thresholds (d : List (Rat × Rat)) (P : Rat → Prop)
    (hP : ∀ pr ∈ d, P pr.1 ∧ P pr.2) :
    ∀ c, make_betti_curve d = some c → ∀ t ∈ c, P t.1.1 := by
  intro c hc
  have hPe : ∀ e ∈ sortEvents (eventPoints d), P e.1 := by
    intro e he
    obtain ⟨pr, hpr, hv⟩ := eventPoints_val d e ((mem_sortEvents _ e).mp he)
    rcases hv with h1 | h1
    · rw [h1]; exact (hP pr hpr).1
    · rw [h1]; exact (hP pr hpr).2
  simp only [make_betti_curve] at hc
  split at hc
  · exact absurd hc (by simp)
  · rename_i e0 rest hev
    simp only [Option.some.injEq] at hc
    subst hc
    rw [hev]
    have hinit : P e0.1 := hPe e0 (by rw [hev]; exact List.mem_cons_self e0 rest)
    have hall : ∀ pe ∈ runningCounts (sortEvents (eventPoints d)) 0, P pe.1 := by
      intro pe hpe
      obtain ⟨b, hb⟩ := runningCounts_val _ 0 pe hpe
      exact hPe (pe.1, b) hb
    rw [hev] at hall
    have hs1 := foldl_processEventPoint_inv (runningCounts (e0 :: rest) 0)
      ⟨e0.1, 0, []⟩ hall ⟨hinit, by intro t ht; exact absurd ht (List.not_mem_nil t)⟩
    split
    · exact hs1.2
    · rename_i tl hlast
      split
      · exact processEventPoint_out_inv hs1 _ _
      · exact hs1.2

/-- A non-empty diagram always produces a curve. -/
theorem make_betti_curve_isSome (d : List (Rat × Rat)) (hne : d ≠ []) :
    (make_betti_curve d).isSome = true := by
  simp only [make_betti_curve]
  split
  · rename_i hev
    rcases d with _ | ⟨pr, rest⟩
    · exact absurd rfl hne
    · have h1 := sortEvents_length (eventPoints (pr :: rest))
      rw [hev, eventPoints_cons] at h1
      simp at h1
  · rfl

/-- If every stored threshold lies strictly above the query, the curve
evaluates to `0` (the lower half is empty). -/
theorem evalBetti_zero_of_forall_gt (c : List (Thr × Int)) (x : Rat)
    (h : ∀ t ∈ c, x < t.1.1) : evalBetti c x = 0 := by
  simp only [evalBetti]
  have h1 : c.filter (fun t => t.1 == ((x, 0) : Thr)) = [] := by
    rw [List.filter_eq_nil_iff]
    intro t ht hbe
    rw [beq_iff_eq] at hbe
    have := h t ht
    rw [hbe] at this
    exact absurd this (lt_irrefl x)
  have h2 : c.filter (fun t => thrLtB t.1 ((x, 0) : Thr)) = [] := by
    rw [List.filter_eq_nil_iff]
    intro t ht hcond
    simp only [thrLtB, Bool.or_eq_true, Bool.and_eq_true, decide_eq_true_eq,
      beq_iff_eq] at hcond
    have := h t ht
    rcases hcond with h3 | ⟨h3, _⟩
    · exact absurd (lt_trans this h3) (lt_irrefl _)
    · rw [h3] at this
      exact absurd this (lt_irrefl x)
  rw [h1, h2]
  rfl

/-- If every stored threshold lies strictly below the query, the curve
evaluates to `0` (the upper half is empty). -/
theorem evalBetti_zero_of_forall_lt (c : List (Thr × Int)) (x : Rat)
    (h : ∀ t ∈ c, t.1.1 < x) : evalBetti c x = 0 := by
  simp only [evalBetti]
  have h1 : c.filter (fun t => t.1 == ((x, 0) : Thr)) = [] := by
    rw [List.filter_eq_nil_iff]
    intro t ht hbe
    rw [beq_iff_eq] at hbe
    have := h t ht
    rw [hbe] at this
    exact absurd this (lt_irrefl x)
  have h2 : c.filter (fun t => thrLtB ((x, 0) : Thr) t.1) = [] := by
    rw [List.filter_eq_nil_iff]
    intro t ht hcond
    simp only [thrLtB, Bool.or_eq_true, Bool.and_eq_true, decide_eq_true_eq,
      beq_iff_eq] at hcond
    have := h t ht
    rcases hcond with h3 | ⟨h3, _⟩
    · exact absurd (lt_trans this h3) (lt_irrefl _)
    · rw [← h3] at this
      exact absurd this (lt_irrefl x)
  rw [h1, h2]
  cases hl : (c.filter (fun t => thrLtB t.1 ((x, 0) : Thr))).getLast? with
  | none => rfl
  | some a => rfl


/-- `process_event_points` called with `prev_p + 1` (as in the final flush)
always takes the threshold-changed branch. -/
theorem processEventPoint_succ (s : BCState) (v : Int) :
    processEventPoint s (s.prev_p + 1) v =
      ⟨s.prev_p + 1, v,
        (match s.out.getLast? with
         | none => s.out
         | some t => s.out ++ [(((s.prev_p, -1) : Thr), t.2)])
        ++ [(((s.prev_p, 0) : Thr), s.prev_v)]⟩ := by
  unfold processEventPoint
  rw [if_neg (show ¬ s.prev_p = s.prev_p + 1 by simp)]

/-- Evaluation lemma for `make_betti_curve` on a non-empty event list:
once the sorted events and the fold result are known, the curve is the
fold's output plus the final flush. -/
theorem make_betti_curve_eval (d : List (Rat × Rat)) (e0 : Rat × Bool)
    (rest : List (Rat × Bool)) (s1 : BCState)
    (hev : sortEvents (eventPoints d) = e0 :: rest)
    (hfold : List.foldl (fun s pe => processEventPoint s pe.1 pe.2)
        ⟨e0.1, 0, []⟩ (runningCounts (e0 :: rest) 0) = s1) :
    make_betti_curve d = some (
      match s1.out.getLast? with
      | none => s1.out
      | some t =>
        if ((s1.prev_p, 0) : Thr) ≠ t.1 then
          (match s1.out.getLast? with
           | none => s1.out
           | some t2 => s1.out ++ [(((s1.prev_p, -1) : Thr), t2.2)])
          ++ [(((s1.prev_p, 0) : Thr), s1.prev_v)]
        else s1.out) := by
  simp only [make_betti_curve]
  rw [hev]
  simp only []
  rw [hfold]
  cases hlast : s1.out.getLast? with
  | none => rfl
  | some t =>
    simp only []
    by_cases hc : ((s1.prev_p, 0) : Thr) ≠ t.1
    · rw [if_pos hc, if_pos hc, processEventPoint_succ, hlast]
    · rw [if_neg hc, if_neg hc]

/-- **C7** counterexample: the claim quantifies over *every* non-empty
diagram, but for the malformed diagram `[(5, 0)]` (death before birth) the
threshold `2` is strictly below the minimum birth `5`, yet the curve
evaluates to `-1`, not `0`. -/
theorem C7_compact_support_cex :
    ((2 : Rat) < 5)
    ∧ make_betti_curve [((5 : Rat), (0 : Rat))] = some curve50
    ∧ evalBetti curve50 2 = -1
    ∧ ((-1 : Rat) ≠ 0) := by
  refine ⟨by norm_num, ?_, ?_, by norm_num⟩
  · rw [make_betti_curve_eval [((5 : Rat), (0 : Rat))] ((0 : Rat), false)
      [((5 : Rat), true)] ⟨5, 0, [(((0 : Rat), (0 : Int)), (-1 : Int))]⟩
      (by decide) (by decide)]
    decide
  · simp only [evalBetti]
    rw [show curve50.filter (fun t => t.1 == (((2 : Rat), (0 : Int)) : Thr)) = []
      from by decide]
    rw [show curve50.filter (fun t => thrLtB t.1 (((2 : Rat), (0 : Int)) : Thr))
      = [(((0 : Rat), (0 : Int)), (-1 : Int))] from by decide]
    rw [show curve50.filter (fun t => thrLtB (((2 : Rat), (0 : Int)) : Thr) t.1)
      = [(((5 : Rat), (-1 : Int)), (-1 : Int)), (((5 : Rat), (0 : Int)), (0 : Int))]
      from by decide]
    norm_num

/-- **C7** amended: for every non-empty diagram **whose pairs all satisfy
birth ≤ death**, the Betti curve exists and evaluates to `0` at every
threshold strictly below every birth and at every threshold strictly above
every death. -/
theorem C7_compact_support (d : List (Rat × Rat)) (x : Rat) (hne : d ≠ [])
    (hwf : ∀ pr ∈ d, pr.1 ≤ pr.2) :
    (make_betti_curve d).isSome = true
    ∧ ((∀ pr ∈ d, x < pr.1) →
        ∀ c, make_betti_curve d = some c → evalBetti c x = 0)
    ∧ ((∀ pr ∈ d, pr.2 < x) →
        ∀ c, make_betti_curve d = some c → evalBetti c x = 0) := by
  refine ⟨make_betti_curve_isSome d hne, ?_, ?_⟩
  · intro hx c hc
    apply evalBetti_zero_of_forall_gt
    exact make_betti_thresholds d (fun v => x < v)
      (fun pr hpr => ⟨hx pr hpr, lt_of_lt_of_le (hx pr hpr) (hwf pr hpr)⟩) c hc
  · intro hx c hc
    apply evalBetti_zero_of_forall_lt
    exact make_betti_thresholds d (fun v => v < x)
      (fun pr hpr => ⟨lt_of_le_of_lt (hwf pr hpr) (hx pr hpr), hx pr hpr⟩) c hc

theorem C7_compact_support_witness :
    (make_betti_curve [((0 : Rat), (1 : Rat))]).isSome = true
    ∧ evalBetti [(((0 : Rat), (0 : Int)), (1 : Int)),
        (((1 : Rat), (-1 : Int)), (1 : Int)),
        (((1 : Rat), (0 : Int)), (0 : Int))] (-1) = 0 := by
  have hmb : make_betti_curve [((0 : Rat), (1 : Rat))]
      = some [(((0 : Rat), (0 : Int)), (1 : Int)),
        (((1 : Rat), (-1 : Int)), (1 : Int)),
        (((1 : Rat), (0 : Int)), (0 : Int))] := by
    rw [make_betti_curve_eval [((0 : Rat), (1 : Rat))] ((0 : Rat), true)
      [((1 : Rat), false)] ⟨1, 0, [(((0 : Rat), (0 : Int)), (1 : Int))]⟩
      (by decide) (by decide)]
    decide
  have h := C7_compact_support [((0 : Rat), (1 : Rat))] (-1) (by decide)
    (by decide)
  refine ⟨h.1, ?_⟩
  exact h.2.1 (by decide) _ hmb

/-- **C8**: for the diagram `{(0,1),(0,6),(1,2),(2,3),(3,6),(5,8)}` the
Betti curve evaluates to `2` at every integer threshold from `0` to `4`,
to `3` at `5`, to `1` at `6` and `7`, to `0` at `8` and at every larger
threshold, and to the flanking step value `2` at the midpoint `1.5`. -/
theorem C8_betti_curve_steps :
    make_betti_curve diagram8 = some betti8
    ∧ evalBetti betti8 0 = 2 ∧ evalBetti betti8 1 = 2 ∧ evalBetti betti8 2 = 2
    ∧ evalBetti betti8 3 = 2 ∧ evalBetti betti8 4 = 2 ∧ evalBetti betti8 5 = 3
    ∧ evalBetti betti8 6 = 1 ∧ evalBetti betti8 7 = 1
    ∧ evalBetti betti8 (3 / 2) = 2
    ∧ (∀ x : Rat, 8 ≤ x → evalBetti betti8 x = 0) := by
  have hmb : make_betti_curve diagram8 = some betti8 := by
    rw [make_betti_curve_eval diagram8 ((0 : Rat), true)
      [((0 : Rat), true), ((1 : Rat), false), ((1 : Rat), true),
       ((2 : Rat), false), ((2 : Rat), true), ((3 : Rat), false),
       ((3 : Rat), true), ((5 : Rat), true), ((6 : Rat), false),
       ((6 : Rat), false), ((8 : Rat), false)]
      ⟨8, 0, [(((0 : Rat), (0 : Int)), (2 : Int)),
        (((1 : Rat), (-1 : Int)), (2 : Int)), (((1 : Rat), (0 : Int)), (2 : Int)),
        (((2 : Rat), (-1 : Int)), (2 : Int)), (((2 : Rat), (0 : Int)), (2 : Int)),
        (((3 : Rat), (-1 : Int)), (2 : Int)), (((3 : Rat), (0 : Int)), (2 : Int)),
        (((5 : Rat), (-1 : Int)), (2 : Int)), (((5 : Rat), (0 : Int)), (3 : Int)),
        (((6 : Rat), (-1 : Int)), (3 : Int)), (((6 : Rat), (0 : Int)), (1 : Int))]⟩
      (by decide) (by decide)]
    decide
  have hmid : evalBetti betti8 (3 / 2) = 2 := by
    rw [show (3 / 2 : Rat) = mkRat 3 2 from by
      rw [Rat.mkRat_eq_div]; norm_num]
    simp only [evalBetti]
    rw [show betti8.filter (fun t => t.1 == ((mkRat 3 2, (0 : Int)) : Thr)) = []
      from by decide]
    rw [show betti8.filter
        (fun t => thrLtB t.1 ((mkRat 3 2, (0 : Int)) : Thr))
      = [(((0 : Rat), (0 : Int)), (2 : Int)), (((1 : Rat), (-1 : Int)), (2 : Int)),
         (((1 : Rat), (0 : Int)), (2 : Int))] from by decide]
    rw [show betti8.filter
        (fun t => thrLtB ((mkRat 3 2, (0 : Int)) : Thr) t.1)
      = [(((2 : Rat), (-1 : Int)), (2 : Int)), (((2 : Rat), (0 : Int)), (2 : Int)),
         (((3 : Rat), (-1 : Int)), (2 : Int)), (((3 : Rat), (0 : Int)), (2 : Int)),
         (((5 : Rat), (-1 : Int)), (2 : Int)), (((5 : Rat), (0 : Int)), (3 : Int)),
         (((6 : Rat), (-1 : Int)), (3 : Int)), (((6 : Rat), (0 : Int)), (1 : Int)),
         (((8 : Rat), (-1 : Int)), (1 : Int)), (((8 : Rat), (0 : Int)), (0 : Int))]
      from by decide]
    norm_num
  have h4 : evalBetti betti8 4 = 2 := by
    simp only [evalBetti]
    rw [show betti8.filter (fun t => t.1 == (((4 : Rat), (0 : Int)) : Thr)) = []
      from by decide]
    rw [show betti8.filter (fun t => thrLtB t.1 (((4 : Rat), (0 : Int)) : Thr))
      = [(((0 : Rat), (0 : Int)), (2 : Int)), (((1 : Rat), (-1 : Int)), (2 : Int)),
         (((1 : Rat), (0 : Int)), (2 : Int)), (((2 : Rat), (-1 : Int)), (2 : Int)),
         (((2 : Rat), (0 : Int)), (2 : Int)), (((3 : Rat), (-1 : Int)), (2 : Int)),
         (((3 : Rat), (0 : Int)), (2 : Int))] from by decide]
    rw [show betti8.filter (fun t => thrLtB (((4 : Rat), (0 : Int)) : Thr) t.1)
      = [(((5 : Rat), (-1 : Int)), (2 : Int)), (((5 : Rat), (0 : Int)), (3 : Int)),
         (((6 : Rat), (-1 : Int)), (3 : Int)), (((6 : Rat), (0 : Int)), (1 : Int)),
         (((8 : Rat), (-1 : Int)), (1 : Int)), (((8 : Rat), (0 : Int)), (0 : Int))]
      from by decide]
    norm_num
  have h7 : evalBetti betti8 7 = 1 := by
    simp only [evalBetti]
    rw [show betti8.filter (fun t => t.1 == (((7 : Rat), (0 : Int)) : Thr)) = []
      from by decide]
    rw [show betti8.filter (fun t => thrLtB t.1 (((7 : Rat), (0 : Int)) : Thr))
      = [(((0 : Rat), (0 : Int)), (2 : Int)), (((1 : Rat), (-1 : Int)), (2 : Int)),
         (((1 : Rat), (0 : Int)), (2 : Int)), (((2 : Rat), (-1 : Int)), (2 : Int)),
         (((2 : Rat), (0 : Int)), (2 : Int)), (((3 : Rat), (-1 : Int)), (2 : Int)),
         (((3 : Rat), (0 : Int)), (2 : Int)), (((5 : Rat), (-1 : Int)), (2 : Int)),
         (((5 : Rat), (0 : Int)), (3 : Int)), (((6 : Rat), (-1 : Int)), (3 : Int)),
         (((6 : Rat), (0 : Int)), (1 : Int))] from by decide]
    rw [show betti8.filter (fun t => thrLtB (((7 : Rat), (0 : Int)) : Thr) t.1)
      = [(((8 : Rat), (-1 : Int)), (1 : Int)), (((8 : Rat), (0 : Int)), (0 : Int))]
      from by decide]
    norm_num
  refine ⟨hmb, by decide, by decide, by decide, by decide, h4, by decide,
    by decide, h7, hmid, ?_⟩
  intro x hx
  rcases eq_or_lt_of_le hx with he | hlt
  · rw [← he]
    decide
  · apply evalBetti_zero_of_forall_lt
    intro t ht
    have hb : t.1.1 ≤ 8 := by
      fin_cases ht <;> norm_num
    exact lt_of_le_of_lt hb hlt

theorem C8_betti_curve_steps_witness :
    evalBetti betti8 9 = 0 :=
  C8_betti_curve_steps.2.2.2.2.2.2.2.2.2.2 9 (by norm_num)

/-- **C3** counterexample: for `f = [1,3,2]` under the sublevel order, the
sweep processes indices in the order `[0,2,1]`; the steps at `0` and `2`
leave the state unchanged, and index `1` is a "high"-type extremum.  The
older root is `0` (its value `1` is better), so the claim predicts the
recorded pair `(value[0], f[1]) = (1,3)`; the engine instead records index
pair `(2,1)`, i.e. the value pair `(2,3)` — the value at the *younger*
root. -/
theorem C3_function_pair_older_root_cex :
    let f : List Int := [1, 3, 2]
    let pred := predB Order.sublevel
    let s0 : FnState := ⟨List.range 3, []⟩
    sortIndices Order.sublevel f = [0, 2, 1]
    ∧ ([0, 2] : List Nat).foldl (processIndex f pred 3) s0 = s0
    ∧ pred (f.getD 0 0) (f.getD 1 0) = true
    ∧ pred (f.getD 2 0) (f.getD 1 0) = true
    ∧ UF.rootD s0.uf 0 = 0
    ∧ pred (f.getD (UF.rootD s0.uf 0) 0) (f.getD (UF.rootD s0.uf 2) 0) = true
    ∧ (processIndex f pred 3 s0 1).pairs = [(2, 1)]
    ∧ (f.getD 2 0, f.getD 1 0) = ((2 : Int), (3 : Int))
    ∧ (f.getD (UF.rootD s0.uf 0) 0, f.getD 1 0) = ((1 : Int), (3 : Int))
    ∧ ((2 : Int), (3 : Int)) ≠ ((1 : Int), (3 : Int)) := by
  refine ⟨by decide, by decide, by decide, by decide, by decide, by decide,
    by decide, by decide, by decide, by decide⟩

theorem predB_asymm {order : Order} {a b : Int} (h : predB order a b = true) :
    predB order b a = false := by
  cases order <;> simp [predB] at h ⊢ <;> omega

theorem predB_ne {order : Order} {a b : Int} (h : predB order a b = true) :
    a ≠ b := by
  cases order <;> simp [predB] at h <;> omega

/-- Shape of a `processIndex` step at an interior "high"-type extremum
(case 2 of the sweep): the step reduces to the two-merge branch. -/
theorem processIndex_case2 (f : List Int) (pred : Int → Int → Bool) (n : Nat)
    (s : FnState) (i : Nat)
    (hi0 : 0 < i) (hin : i < n - 1)
    (hu : pred (f.getD (i - 1) 0) (f.getD i 0) = true)
    (hv : pred (f.getD (i + 1) 0) (f.getD i 0) = true)
    (hxu : pred (f.getD i 0) (f.getD (i - 1) 0) = false) :
    processIndex f pred n s i =
      if pred (f.getD (UF.find s.uf (i - 1)).1 0)
          (f.getD (UF.find (UF.find s.uf (i - 1)).2 (i + 1)).1 0) then
        ⟨UF.merge
            (UF.merge
              (UF.find (UF.find (UF.find s.uf (i - 1)).2 (i + 1)).2 (i + 1)).2
              i (i + 1))
            (i + 1) (i - 1),
          s.pairs ++
            [((UF.find (UF.find (UF.find s.uf (i - 1)).2 (i + 1)).2 (i + 1)).1,
              i)]⟩
      else
        ⟨UF.merge
            (UF.merge
              (UF.find (UF.find (UF.find s.uf (i - 1)).2 (i + 1)).2 (i - 1)).2
              i (i - 1))
            (i - 1) (i + 1),
          s.pairs ++
            [((UF.find (UF.find (UF.find s.uf (i - 1)).2 (i + 1)).2 (i - 1)).1,
              i)]⟩ := by
  simp only [processIndex]
  rw [if_pos hi0, if_pos hin, hxu, hu, hv]
  simp

/-- **C3** amended: at every interior "high"-type extremum (both neighbour
values strictly better under the order predicate), with the extremum's
component currently distinct from both neighbouring components, the engine
records the index pair `(younger_root, index)` — whose value pair is
`(value[younger_root], x)`, the value at the **younger** of the two
neighbouring roots (the one whose representative value is worse under the
predicate) — and after the two merges the **older** root is the surviving
representative of the extremum and of both neighbours. -/
theorem C3_function_max_pair_younger_elder_survives
    (f : List Int) (order : Order) (s : FnState) (i : Nat)
    (hWF : UF.WF s.uf) (hlen : s.uf.length = f.length)
    (hi0 : 0 < i) (hin : i + 1 < f.length)
    (hu : predB order (f.getD (i - 1) 0) (f.getD i 0) = true)
    (hv : predB order (f.getD (i + 1) 0) (f.getD i 0) = true)
    (hdl : UF.rootD s.uf i ≠ UF.rootD s.uf (i - 1))
    (hdr : UF.rootD s.uf i ≠ UF.rootD s.uf (i + 1)) :
    (processIndex f (predB order) f.length s i).pairs = s.pairs ++
      [((if predB order (f.getD (UF.rootD s.uf (i - 1)) 0)
            (f.getD (UF.rootD s.uf (i + 1)) 0)
          then UF.rootD s.uf (i + 1) else UF.rootD s.uf (i - 1)), i)]
    ∧ UF.rootD (processIndex f (predB order) f.length s i).uf (i - 1) =
        (if predB order (f.getD (UF.rootD s.uf (i - 1)) 0)
            (f.getD (UF.rootD s.uf (i + 1)) 0)
          then UF.rootD s.uf (i - 1) else UF.rootD s.uf (i + 1))
    ∧ UF.rootD (processIndex f (predB order) f.length s i).uf i =
        (if predB order (f.getD (UF.rootD s.uf (i - 1)) 0)
            (f.getD (UF.rootD s.uf (i + 1)) 0)
          then UF.rootD s.uf (i - 1) else UF.rootD s.uf (i + 1))
    ∧ UF.rootD (processIndex f (predB order) f.length s i).uf (i + 1) =
        (if predB order (f.getD (UF.rootD s.uf (i - 1)) 0)
            (f.getD (UF.rootD s.uf (i + 1)) 0)
          then UF.rootD s.uf (i - 1) else UF.rootD s.uf (i + 1)) := by
  have hxu : predB order (f.getD i 0) (f.getD (i - 1) 0) = false := predB_asymm hu
  have hin2 : i < f.length - 1 := by omega
  rw [processIndex_case2 f (predB order) f.length s i hi0 hin2 hu hv hxu]
  obtain ⟨e1, l1, w1, r1⟩ := UF.find_spec hWF (i - 1)
  obtain ⟨e2, l2, w2, r2⟩ := UF.find_spec w1 (i + 1)
  have e2r : (UF.find (UF.find s.uf (i - 1)).2 (i + 1)).1
      = UF.rootD s.uf (i + 1) := by rw [e2, r1]
  rw [e1, e2r]
  by_cases hp : predB order (f.getD (UF.rootD s.uf (i - 1)) 0)
      (f.getD (UF.rootD s.uf (i + 1)) 0) = true
  · rw [if_pos hp]
    obtain ⟨e3, l3, w3, r3⟩ := UF.find_spec w2 (i + 1)
    have hq3 : ∀ y, UF.rootD
        (UF.find (UF.find (UF.find s.uf (i - 1)).2 (i + 1)).2 (i + 1)).2 y
        = UF.rootD s.uf y := fun y => by rw [r3 y, r2 y, r1 y]
    have hq3len :
        (UF.find (UF.find (UF.find s.uf (i - 1)).2 (i + 1)).2 (i + 1)).2.length
        = f.length := by rw [l3, l2, l1, hlen]
    have hbi : i < (UF.find (UF.find (UF.find s.uf (i - 1)).2
        (i + 1)).2 (i + 1)).2.length := by rw [hq3len]; omega
    have hbi1 : i + 1 < (UF.find (UF.find (UF.find s.uf (i - 1)).2
        (i + 1)).2 (i + 1)).2.length := by rw [hq3len]; omega
    obtain ⟨ml1, mw1, mr1⟩ := UF.merge_spec w3 hbi hbi1
    have hM1 : ∀ y, UF.rootD
        (UF.merge (UF.find (UF.find (UF.find s.uf (i - 1)).2 (i + 1)).2
          (i + 1)).2 i (i + 1)) y
        = if UF.rootD s.uf y = UF.rootD s.uf i then UF.rootD s.uf (i + 1)
          else UF.rootD s.uf y := by
      intro y
      rw [mr1 y, hq3 y, hq3 i, hq3 (i + 1)]
    have h1l : UF.rootD (UF.merge (UF.find (UF.find (UF.find s.uf (i - 1)).2
        (i + 1)).2 (i + 1)).2 i (i + 1)) (i - 1) = UF.rootD s.uf (i - 1) := by
      rw [hM1 (i - 1), if_neg (fun he => hdl he.symm)]
    have h1i : UF.rootD (UF.merge (UF.find (UF.find (UF.find s.uf (i - 1)).2
        (i + 1)).2 (i + 1)).2 i (i + 1)) i = UF.rootD s.uf (i + 1) := by
      rw [hM1 i, if_pos rfl]
    have h1r : UF.rootD (UF.merge (UF.find (UF.find (UF.find s.uf (i - 1)).2
        (i + 1)).2 (i + 1)).2 i (i + 1)) (i + 1) = UF.rootD s.uf (i + 1) := by
      rw [hM1 (i + 1), if_neg (fun he => hdr he.symm)]
    have hbm1 : i + 1 < (UF.merge (UF.find (UF.find (UF.find s.uf (i - 1)).2
        (i + 1)).2 (i + 1)).2 i (i + 1)).length := by rw [ml1, hq3len]; omega
    have hbm2 : i - 1 < (UF.merge (UF.find (UF.find (UF.find s.uf (i - 1)).2
        (i + 1)).2 (i + 1)).2 i (i + 1)).length := by rw [ml1, hq3len]; omega
    obtain ⟨ml2, mw2, mr2⟩ := UF.merge_spec mw1 hbm1 hbm2
    have hrlrr : UF.rootD s.uf (i - 1) ≠ UF.rootD s.uf (i + 1) := by
      intro he
      exact predB_ne hp (by rw [he])
    refine ⟨?_, ?_, ?_, ?_⟩
    · show s.pairs ++ [((UF.find (UF.find (UF.find s.uf (i - 1)).2 (i + 1)).2
          (i + 1)).1, i)] = _
      rw [e3, r2, r1, if_pos hp]
    · show UF.rootD _ (i - 1) = _
      rw [mr2 (i - 1), h1l, h1r, if_neg hrlrr, if_pos hp]
    · show UF.rootD _ i = _
      rw [mr2 i, h1i, h1r, h1l, if_pos rfl, if_pos hp]
    · show UF.rootD _ (i + 1) = _
      rw [mr2 (i + 1), h1r, h1l, if_pos rfl, if_pos hp]
  · rw [if_neg hp]
    obtain ⟨e3, l3, w3, r3⟩ := UF.find_spec w2 (i - 1)
    have hq3 : ∀ y, UF.rootD
        (UF.find (UF.find (UF.find s.uf (i - 1)).2 (i + 1)).2 (i - 1)).2 y
        = UF.rootD s.uf y := fun y => by rw [r3 y, r2 y, r1 y]
    have hq3len :
        (UF.find (UF.find (UF.find s.uf (i - 1)).2 (i + 1)).2 (i - 1)).2.length
        = f.length := by rw [l3, l2, l1, hlen]
    have hbi : i < (UF.find (UF.find (UF.find s.uf (i - 1)).2
        (i + 1)).2 (i - 1)).2.length := by rw [hq3len]; omega
    have hbi1 : i - 1 < (UF.find (UF.find (UF.find s.uf (i - 1)).2
        (i + 1)).2 (i - 1)).2.length := by rw [hq3len]; omega
    obtain ⟨ml1, mw1, mr1⟩ := UF.merge_spec w3 hbi hbi1
    have hM1 : ∀ y, UF.rootD
        (UF.merge (UF.find (UF.find (UF.find s.uf (i - 1)).2 (i + 1)).2
          (i - 1)).2 i (i - 1)) y
        = if UF.rootD s.uf y = UF.rootD s.uf i then UF.rootD s.uf (i - 1)
          else UF.rootD s.uf y := by
      intro y
      rw [mr1 y, hq3 y, hq3 i, hq3 (i - 1)]
    have h1l : UF.rootD (UF.merge (UF.find (UF.find (UF.find s.uf (i - 1)).2
        (i + 1)).2 (i - 1)).2 i (i - 1)) (i - 1) = UF.rootD s.uf (i - 1) := by
      rw [hM1 (i - 1), if_neg (fun he => hdl he.symm)]
    have h1i : UF.rootD (UF.merge (UF.find (UF.find (UF.find s.uf (i - 1)).2
        (i + 1)).2 (i - 1)).2 i (i - 1)) i = UF.rootD s.uf (i - 1) := by
      rw [hM1 i, if_pos rfl]
    have h1r : UF.rootD (UF.merge (UF.find (UF.find (UF.find s.uf (i - 1)).2
        (i + 1)).2 (i - 1)).2 i (i - 1)) (i + 1) = UF.rootD s.uf (i + 1) := by
      rw [hM1 (i + 1), if_neg (fun he => hdr he.symm)]
    have hbm1 : i - 1 < (UF.merge (UF.find (UF.find (UF.find s.uf (i - 1)).2
        (i + 1)).2 (i - 1)).2 i (i - 1)).length := by rw [ml1, hq3len]; omega
    have hbm2 : i + 1 < (UF.merge (UF.find (UF.find (UF.find s.uf (i - 1)).2
        (i + 1)).2 (i - 1)).2 i (i - 1)).length := by rw [ml1, hq3len]; omega
    obtain ⟨ml2, mw2, mr2⟩ := UF.merge_spec mw1 hbm1 hbm2
    refine ⟨?_, ?_, ?_, ?_⟩
    · show s.pairs ++ [((UF.find (UF.find (UF.find s.uf (i - 1)).2 (i + 1)).2
          (i - 1)).1, i)] = _
      rw [e3, r2, r1, if_neg hp]
    · show UF.rootD _ (i - 1) = _
      rw [mr2 (i - 1), h1l, if_pos rfl, h1r, if_neg hp]
    · show UF.rootD _ i = _
      rw [mr2 i, h1i, h1l, if_pos rfl, h1r, if_neg hp]
    · show UF.rootD _ (i + 1) = _
      rw [mr2 (i + 1), h1r, h1l, ite_self, if_neg hp]

theorem C3_function_max_pair_witness :
    (processIndex [(1 : Int), 3, 2] (predB Order.sublevel) 3 ⟨List.range 3, []⟩
        1).pairs = [] ++
      [((if predB Order.sublevel
            ([(1 : Int), 3, 2].getD (UF.rootD (List.range 3) 0) 0)
            ([(1 : Int), 3, 2].getD (UF.rootD (List.range 3) 2) 0)
          then UF.rootD (List.range 3) 2 else UF.rootD (List.range 3) 0), 1)]
    ∧ UF.rootD (processIndex [(1 : Int), 3, 2] (predB Order.sublevel) 3
        ⟨List.range 3, []⟩ 1).uf 0 =
        (if predB Order.sublevel
            ([(1 : Int), 3, 2].getD (UF.rootD (List.range 3) 0) 0)
            ([(1 : Int), 3, 2].getD (UF.rootD (List.range 3) 2) 0)
          then UF.rootD (List.range 3) 0 else UF.rootD (List.range 3) 2) := by
  have h := C3_function_max_pair_younger_elder_survives [(1 : Int), 3, 2]
    Order.sublevel ⟨List.range 3, []⟩ 1 (UF.wf_range 3) (by decide)
    (by decide) (by decide) (by decide) (by decide) (by decide) (by decide)
  exact ⟨h.1, h.2.1⟩

end Pyper
